import Mathlib

/-!
Verification of the limeutils Redis wrapper (`src/limeutils/redis/redis.py`)
against its specification.

The store itself (the `redis` client `self.r`) is an external collaborator;
we model it with standard Redis semantics over an association-list state.
Python scalars are modelled by `PyVal`; a missing reply is `PyVal.none`.
Each public operation of the wrapper is translated from the source and
returns its result, the post-state of the store, and the ordered trace of
store commands it issued.
-/

/-- Python scalar values as they appear after decoding a store reply.
`PyVal.none` is the absent marker (Python `None`). -/
inductive PyVal where
  | none
  | str (s : String)
  | int (n : Int)
  | float (q : Rat)
deriving DecidableEq, Repr

/-- Python truthiness of a scalar: `None`, `''`, `0`, `0.0` are falsy. -/
def pyTruthy : PyVal → Bool
  | PyVal.none => false
  | PyVal.str s => !(s == "")
  | PyVal.int n => !(n == 0)
  | PyVal.float q => !(q == 0)

/-- Python `val == 0` on a scalar: true exactly for numeric zero. -/
def pyEqZero : PyVal → Bool
  | PyVal.int n => n == 0
  | PyVal.float q => q == 0
  | _ => false

/-- Modelled from the spec: `byte_conv` (the ValueCodec) is not under `src/`.
Per the spec it is a pass-through conversion of raw store replies that maps a
missing reply to the absent marker and preserves every present scalar,
including the empty string and zero, unchanged. -/
def byteConv (o : Option PyVal) : PyVal :=
  match o with
  | Option.none => PyVal.none
  | Option.some v => v

/-- Lookup in an association list keyed by strings. -/
def aget {β : Type} : List (String × β) → String → Option β
  | [], _ => Option.none
  | (k, v) :: rest, key => if k = key then Option.some v else aget rest key

/-- Python-dict style insertion: replace in place if the key is present,
otherwise append at the end (preserving insertion order). -/
def dinsert {β : Type} : List (String × β) → String → β → List (String × β)
  | [], k, v => [(k, v)]
  | (k', v') :: rest, k, v =>
    if k' = k then (k, v) :: rest else (k', v') :: dinsert rest k v

/-- Remove a key from an association list. -/
def adel {β : Type} (l : List (String × β)) (k : String) : List (String × β) :=
  l.filter (fun p => !(p.1 == k))

/-- A Redis value slot: a key holds either a string value or a hash. -/
inductive RVal where
  | str (v : PyVal)
  | hash (h : List (String × PyVal))
deriving DecidableEq, Repr

/-- The store state: one keyspace (each key holds a string or a hash) and
the per-key time-to-live table. -/
structure Store where
  data : List (String × RVal)
  ttls : List (String × Int)
deriving DecidableEq, Repr

/-- EXISTS: whether a key is present in the keyspace. -/
def keyExists (st : Store) (k : String) : Bool :=
  (aget st.data k).isSome

/-- SET with the `xx` and `keepttl` flags: with `xx` the write happens only
if the key already exists; unless `keepttl`, a successful SET clears any
existing expiration. Returns whether the write took effect. -/
def storeSet (st : Store) (k : String) (v : PyVal) (xx keepttl : Bool) :
    Bool × Store :=
  if xx && !(keyExists st k) then (false, st)
  else
    let st1 : Store := { st with data := dinsert st.data k (RVal.str v) }
    let st2 : Store :=
      if keepttl then st1 else { st1 with ttls := adel st1.ttls k }
    (true, st2)

/-- EXPIRE: set the key's time-to-live, a no-op when the key is absent. -/
def storeExpire (st : Store) (k : String) (t : Int) : Store :=
  if keyExists st k then { st with ttls := dinsert st.ttls k t } else st

/-- HSET over a list of field/value pairs, applied in order. Returns the
number of fields newly created (updating an existing field counts 0). -/
def storeHset (st : Store) (k : String) (pairs : List (String × PyVal)) :
    Int × Store :=
  let h : List (String × PyVal) :=
    match aget st.data k with
    | Option.some (RVal.hash h) => h
    | _ => []
  let step : Int × List (String × PyVal) → String × PyVal →
      Int × List (String × PyVal) := fun acc p =>
    ((if (aget acc.2 p.1).isSome then acc.1 else acc.1 + 1),
      dinsert acc.2 p.1 p.2)
  let r := pairs.foldl step (0, h)
  (r.1, { st with data := dinsert st.data k (RVal.hash r.2) })

/-- GET: the string value at a key, absent when missing or hash-typed. -/
def storeGet (st : Store) (k : String) : Option PyVal :=
  match aget st.data k with
  | Option.some (RVal.str v) => Option.some v
  | _ => Option.none

/-- HGET: one field of the hash at a key. -/
def storeHget (st : Store) (k f : String) : Option PyVal :=
  match aget st.data k with
  | Option.some (RVal.hash h) => aget h f
  | _ => Option.none

/-- HMGET: the requested fields in order, absent fields as `none`. -/
def storeHmget (st : Store) (k : String) (fields : List String) :
    List (Option PyVal) :=
  fields.map (fun f => storeHget st k f)

/-- HGETALL: every field of the hash at a key, in the store's order. -/
def storeHgetall (st : Store) (k : String) : List (String × PyVal) :=
  match aget st.data k with
  | Option.some (RVal.hash h) => h
  | _ => []

/-- HDEL: remove the given fields from the hash at a key, counting the
fields that existed; when the hash becomes empty the key itself (and its
time-to-live) disappears, as in Redis. -/
def storeHdel (st : Store) (k : String) (fields : List String) :
    Int × Store :=
  match aget st.data k with
  | Option.some (RVal.hash h) =>
    let step : Int × List (String × PyVal) → String →
        Int × List (String × PyVal) := fun acc f =>
      ((if (aget acc.2 f).isSome then acc.1 + 1 else acc.1), adel acc.2 f)
    let r := fields.foldl step (0, h)
    if r.2.isEmpty then
      (r.1, { data := adel st.data k, ttls := adel st.ttls k })
    else
      (r.1, { st with data := dinsert st.data k (RVal.hash r.2) })
  | _ => (0, st)

/-- One deletion step of DEL: remove the key and its time-to-live when
present, incrementing the count. -/
def delStep (acc : Int × Store) (k : String) : Int × Store :=
  if keyExists acc.2 k then
    (acc.1 + 1, { data := adel acc.2.data k, ttls := adel acc.2.ttls k })
  else acc

/-- DEL over several keys: each existing key is removed, and the number of
keys actually removed is returned. -/
def storeDel (st : Store) (keys : List String) : Int × Store :=
  keys.foldl delStep (0, st)

/-- Store commands as issued by the wrapper: the trace of a call. -/
inductive Call where
  | set (key : String) (val : PyVal) (xx keepttl : Bool)
  | expire (key : String) (ttl : Int)
  | hset (key : String) (pairs : List (String × PyVal))
  | get (key : String)
  | hget (key field : String)
  | hmget (key : String) (fields : List String)
  | hgetall (key : String)
  | hdel (key : String) (fields : List String)
  | del (keys : List String)
deriving DecidableEq, Repr

/-- Modelled from the spec: the `ValidationError` class is not under `src/`.
Per the spec it is a tagged variant: a free-form message, or an ordered
sequence of allowed choices formatted on demand. -/
inductive ValidationError where
  | freeform (msg : String)
  | choices (cs : List String)
deriving DecidableEq, Repr

/-- The joiner for three or more choices: comma-separated with an Oxford
comma before the final "or". -/
def oxford : List String → String
  | [] => ""
  | [c] => c
  | [c1, c2] => c1 ++ ", or " ++ c2
  | c1 :: c2 :: c3 :: rest => c1 ++ ", " ++ oxford (c2 :: c3 :: rest)

/-- The choice-list text: one choice stands alone, two are joined by "or",
three or more take the Oxford-comma form. -/
def choicesText : List String → String
  | [] => ""
  | [c] => c
  | [c1, c2] => c1 ++ " or " ++ c2
  | c1 :: c2 :: c3 :: rest => oxford (c1 :: c2 :: c3 :: rest)

/-- Modelled from the spec: the `message` of a `ValidationError` — a
free-form error returns its message unchanged, an enumerated-choice error
formats its ordered choices. -/
def ValidationError.message : ValidationError → String
  | ValidationError.freeform m => m
  | ValidationError.choices cs => "Arguments can only be: " ++ choicesText cs ++ "."

/-- Python's `str.strip()`: drop leading and trailing whitespace. -/
def pyStrip (s : String) : String :=
  String.mk
    (((s.data.dropWhile Char.isWhitespace).reverse.dropWhile
      Char.isWhitespace).reverse)

/-- Instance-level namespace context: the `pre` and `ver` set at
construction time. -/
structure RedisConf where
  pre : String
  ver : String
deriving DecidableEq, Repr

/-- The process-wide default time-to-live (`Redis.ttl = 1209600`). -/
def Redis.ttl : Int := 1209600

/-- `Redis._cleankey`: the per-call override, when truthy, wins over the
stripped instance value; falsy segments are dropped and the survivors are
joined with a colon. An unset per-call override (`None`) behaves like an
empty one. -/
def cleankey (instPre instVer : String) (pre ver : Option String)
    (key : String) : String :=
  let p : String :=
    match pre with
    | Option.some s => if s = "" then pyStrip instPre else s
    | Option.none => pyStrip instPre
  let v : String :=
    match ver with
    | Option.some s => if s = "" then pyStrip instVer else s
    | Option.none => pyStrip instVer
  String.intercalate ":" (List.filter (fun s => !(s == "")) [p, v, key])

/-- The spec's KeyComposer, written from its words: effective segment =
per-call value if non-empty else trimmed instance value; drop empty
segments of `[effective_prefix, effective_version, base_key]` preserving
order; join with a colon. -/
def composeSpec (instPre instVer callPre callVer key : String) : String :=
  let p : String := if callPre = "" then pyStrip instPre else callPre
  let v : String := if callVer = "" then pyStrip instVer else callVer
  String.intercalate ":" (List.filter (fun s => !(s == "")) [p, v, key])

/-- Python-dict construction from an ordered pair list (`dict(zip(..))`):
later pairs overwrite earlier values in place. -/
def pyDict (pairs : List (String × PyVal)) : List (String × PyVal) :=
  pairs.foldl (fun d p => dinsert d p.1 p.2) []

/-- `Redis.set`: compose the key, write with the `xx`/`keepttl` flags, then
unconditionally issue EXPIRE with the per-call ttl or the default. -/
def Redis.set (cfg : RedisConf) (st : Store) (key : String) (val : PyVal)
    (xx keepttl : Bool) (ttl : Option Int) (pre ver : Option String) :
    Bool × Store × List Call :=
  let k := cleankey cfg.pre cfg.ver pre ver key
  let t := ttl.getD Redis.ttl
  let r := storeSet st k val xx keepttl
  (r.1, storeExpire r.2 k t, [Call.set k val xx keepttl, Call.expire k t])

/-- `Redis.hset`: compose the key, HSET the `(field, val)` pair followed by
the optional mapping, then unconditionally issue EXPIRE. -/
def Redis.hset (cfg : RedisConf) (st : Store) (key field : String)
    (val : PyVal) (mapping : Option (List (String × PyVal)))
    (ttl : Option Int) (pre ver : Option String) :
    Int × Store × List Call :=
  let k := cleankey cfg.pre cfg.ver pre ver key
  let t := ttl.getD Redis.ttl
  let pairs := (field, val) :: mapping.getD []
  let r := storeHset st k pairs
  (r.1, storeExpire r.2 k t, [Call.hset k pairs, Call.expire k t])

/-- `Redis.hmset`: an empty mapping returns 0 with no store interaction;
otherwise HSET the mapping at the composed key and issue EXPIRE. -/
def Redis.hmset (cfg : RedisConf) (st : Store) (key : String)
    (mapping : List (String × PyVal)) (ttl : Option Int)
    (pre ver : Option String) : Int × Store × List Call :=
  if mapping.isEmpty then (0, st, [])
  else
    let k := cleankey cfg.pre cfg.ver pre ver key
    let t := ttl.getD Redis.ttl
    let r := storeHset st k mapping
    (r.1, storeExpire r.2 k t, [Call.hset k mapping, Call.expire k t])

/-- `Redis.get`: read and decode the composed key; return the decoded value
when it is truthy or equals numeric zero, else the caller's default. -/
def Redis.get (cfg : RedisConf) (st : Store) (key : String) (default : PyVal)
    (pre ver : Option String) : PyVal × Store × List Call :=
  let k := cleankey cfg.pre cfg.ver pre ver key
  let val := byteConv (storeGet st k)
  ((if pyTruthy val || pyEqZero val then val else default), st, [Call.get k])

/-- `Redis.hget`: read and decode one hash field; same default rule as
`Redis.get`. -/
def Redis.hget (cfg : RedisConf) (st : Store) (key field : String)
    (default : PyVal) (pre ver : Option String) : PyVal × Store × List Call :=
  let k := cleankey cfg.pre cfg.ver pre ver key
  let val := byteConv (storeHget st k field)
  ((if pyTruthy val || pyEqZero val then val else default), st,
    [Call.hget k field])

/-- `Redis.hmget`: an explicit empty field list returns an empty dict with
no store access; an explicit field list is fetched with HMGET and zipped
into a dict in request order; no field list fetches the whole hash. -/
def Redis.hmget (cfg : RedisConf) (st : Store) (key : String)
    (fields : Option (List String)) (pre ver : Option String) :
    List (String × PyVal) × Store × List Call :=
  match fields with
  | Option.some [] => ([], st, [])
  | Option.some fs =>
    let k := cleankey cfg.pre cfg.ver pre ver key
    let vals := storeHmget st k fs
    (pyDict (List.zip fs (vals.map byteConv)), st, [Call.hmget k fs])
  | Option.none =>
    let k := cleankey cfg.pre cfg.ver pre ver key
    let h := storeHgetall st k
    (pyDict (h.map (fun p => (p.1, byteConv (Option.some p.2)))), st,
      [Call.hgetall k])

/-- Modelled from the spec: `models.Hdel` is not under `src/`. Per the spec
the fields argument must reduce to a non-empty ordered sequence of strings,
a single string being coerced to a one-element sequence; otherwise the call
fails validation. -/
def validateHdelFields (fields : Option (String ⊕ List String)) :
    Except ValidationError (List String) :=
  match fields with
  | Option.none =>
    Except.error (ValidationError.freeform "fields must not be empty")
  | Option.some (Sum.inl s) => Except.ok [s]
  | Option.some (Sum.inr []) =>
    Except.error (ValidationError.freeform "fields must not be empty")
  | Option.some (Sum.inr fs) => Except.ok fs

/-- Modelled from the spec: `models.Delete` is not under `src/`. Per the
spec the key may be a single string or an ordered sequence of strings,
always normalized to a sequence; an empty required field fails
validation. -/
def validateDeleteKey (key : String ⊕ List String) :
    Except ValidationError (List String) :=
  match key with
  | Sum.inl s => Except.ok [s]
  | Sum.inr [] =>
    Except.error (ValidationError.freeform "key must not be empty")
  | Sum.inr ks => Except.ok ks

/-- `Redis.hdel`: validation happens first (building `models.Hdel`); only a
validated call composes the key and issues HDEL. -/
def Redis.hdel (cfg : RedisConf) (st : Store) (key : String)
    (fields : Option (String ⊕ List String)) (pre ver : Option String) :
    Except ValidationError Int × Store × List Call :=
  match validateHdelFields fields with
  | Except.error e => (Except.error e, st, [])
  | Except.ok fs =>
    let k := cleankey cfg.pre cfg.ver pre ver key
    let r := storeHdel st k fs
    (Except.ok r.1, r.2, [Call.hdel k fs])

/-- `Redis.delete`: validation (building `models.Delete`) happens first;
each base key is composed with the same per-call/instance rules and one
multi-key DEL is issued, whose count is returned. -/
def Redis.delete (cfg : RedisConf) (st : Store) (key : String ⊕ List String)
    (pre ver : Option String) : Except ValidationError Int × Store × List Call :=
  match validateDeleteKey key with
  | Except.error e => (Except.error e, st, [])
  | Except.ok ks =>
    let cleaned := ks.map (fun k => cleankey cfg.pre cfg.ver pre ver k)
    let r := storeDel st cleaned
    (Except.ok r.1, r.2, [Call.del cleaned])

lemma aget_dinsert_self {β : Type} (l : List (String × β)) (k : String)
    (v : β) : aget (dinsert l k v) k = Option.some v := by
  induction l with
  | nil => simp [dinsert, aget]
  | cons p rest ih =>
    by_cases h : p.1 = k
    · simp [dinsert, h, aget]
    · simp [dinsert, h, aget, ih]

lemma aget_dinsert_ne {β : Type} (l : List (String × β)) (k k' : String)
    (v : β) (h : k' ≠ k) : aget (dinsert l k v) k' = aget l k' := by
  induction l with
  | nil => simp [dinsert, aget, Ne.symm h]
  | cons p rest ih =>
    by_cases hp : p.1 = k
    · have hne : ¬p.1 = k' := by rw [hp]; exact Ne.symm h
      simp [dinsert, hp, aget, Ne.symm h, hne]
    · by_cases hp' : p.1 = k'
      · simp [dinsert, hp, aget, hp', h]
      · simp [dinsert, hp, aget, hp', ih]

lemma aget_adel_self {β : Type} (l : List (String × β)) (k : String) :
    aget (adel l k) k = Option.none := by
  induction l with
  | nil => simp [adel, aget]
  | cons p rest ih =>
    by_cases hp : p.1 = k
    · simpa [adel, hp] using ih
    · simpa [adel, hp, aget] using ih

lemma aget_adel_ne {β : Type} (l : List (String × β)) (k k' : String)
    (h : k' ≠ k) : aget (adel l k) k' = aget l k' := by
  induction l with
  | nil => simp [adel, aget]
  | cons p rest ih =>
    by_cases hp : p.1 = k
    · have h1 : adel (p :: rest) k = adel rest k := by simp [adel, hp]
      have hne : ¬p.1 = k' := by rw [hp]; exact Ne.symm h
      rw [h1, ih]
      simp [aget, hne]
    · have h1 : adel (p :: rest) k = p :: adel rest k := by simp [adel, hp]
      rw [h1]
      by_cases hp' : p.1 = k'
      · simp [aget, hp']
      · simp [aget, hp', ih]

lemma aget_append_of_none {β : Type} (l1 l2 : List (String × β)) (k : String)
    (h : aget l1 k = Option.none) : aget (l1 ++ l2) k = aget l2 k := by
  induction l1 with
  | nil => simp
  | cons p rest ih =>
    by_cases hp : p.1 = k
    · simp [aget, hp] at h
    · simp [aget, hp] at h ⊢
      exact ih h

lemma dinsert_append {β : Type} (l : List (String × β)) (k : String) (v : β)
    (h : aget l k = Option.none) : dinsert l k v = l ++ [(k, v)] := by
  induction l with
  | nil => simp [dinsert]
  | cons p rest ih =>
    by_cases hp : p.1 = k
    · simp [aget, hp] at h
    · simp [aget, hp] at h
      simp [dinsert, hp, ih h]

lemma storeExpire_data (st : Store) (k : String) (t : Int) :
    (storeExpire st k t).data = st.data := by
  unfold storeExpire
  split <;> rfl

lemma storeGet_expire (st : Store) (k k' : String) (t : Int) :
    storeGet (storeExpire st k t) k' = storeGet st k' := by
  unfold storeGet
  rw [storeExpire_data]

lemma ttl_after_expire (st : Store) (k : String) (t : Int)
    (h : keyExists st k = true) :
    aget (storeExpire st k t).ttls k = Option.some t := by
  unfold storeExpire
  simp [h, aget_dinsert_self]

/-- Comma-separated join of a list of strings. -/
def commaJoin : List String → String
  | [] => ""
  | [c] => c
  | c :: c2 :: rest => c ++ ", " ++ commaJoin (c2 :: rest)

lemma oxford_append (cs : List String) :
    ∀ (c last : String),
      oxford (c :: (cs ++ [last])) = commaJoin (c :: cs) ++ ", or " ++ last := by
  induction cs with
  | nil =>
    intro c last
    simp [oxford, commaJoin]
  | cons c2 cs' ih =>
    intro c last
    cases cs' with
    | nil =>
      simp [oxford, commaJoin, String.append_assoc]
    | cons c3 cs'' =>
      have h2 := ih c2 last
      simp only [List.cons_append] at h2 ⊢
      rw [show oxford (c :: c2 :: c3 :: (cs'' ++ [last])) =
            c ++ ", " ++ oxford (c2 :: c3 :: (cs'' ++ [last])) from rfl]
      rw [h2]
      simp [commaJoin, String.append_assoc]

lemma zip_map_self {β : Type} (l : List String) (g : String → β) :
    List.zip l (l.map g) = l.map (fun f => (f, g f)) := by
  induction l with
  | nil => rfl
  | cons a t ih => simp [List.zip_cons_cons] at *; exact ih

lemma foldl_dinsert (ps : List (String × PyVal)) :
    ∀ (acc : List (String × PyVal)),
      (ps.map Prod.fst).Nodup →
      (∀ p ∈ ps, aget acc p.1 = Option.none) →
      ps.foldl (fun d p => dinsert d p.1 p.2) acc = acc ++ ps := by
  induction ps with
  | nil => intro acc _ _; simp
  | cons p rest ih =>
    intro acc hnd hnone
    simp only [List.map_cons, List.nodup_cons] at hnd
    have hstep : dinsert acc p.1 p.2 = acc ++ [p] := by
      rw [dinsert_append acc p.1 p.2 (hnone p (List.mem_cons_self p rest))]
    have hrest : ∀ q ∈ rest, aget (acc ++ [p]) q.1 = Option.none := by
      intro q hq
      rw [aget_append_of_none acc [p] q.1 (hnone q (List.mem_cons_of_mem p hq))]
      have hne : ¬p.1 = q.1 := by
        intro hcontra
        exact hnd.1 (hcontra ▸ List.mem_map_of_mem Prod.fst hq)
      simp [aget, hne]
    calc (p :: rest).foldl (fun d p => dinsert d p.1 p.2) acc
        = rest.foldl (fun d p => dinsert d p.1 p.2) (acc ++ [p]) := by
          simp [List.foldl_cons, hstep]
      _ = (acc ++ [p]) ++ rest := ih (acc ++ [p]) hnd.2 hrest
      _ = acc ++ (p :: rest) := by simp

lemma pyDict_self (l : List String) (g : String → PyVal) (h : l.Nodup) :
    pyDict (l.map (fun f => (f, g f))) = l.map (fun f => (f, g f)) := by
  unfold pyDict
  rw [foldl_dinsert]
  · simp
  · have heq : (Prod.fst ∘ fun f : String => (f, g f)) = fun f : String => f := by
      funext f
      rfl
    rw [List.map_map, heq]
    simpa using h
  · intro p _
    rfl

lemma keyExists_delStep_ne (acc : Int × Store) (k k' : String)
    (h : k' ≠ k) : keyExists (delStep acc k).2 k' = keyExists acc.2 k' := by
  unfold delStep
  split
  · simp [keyExists, aget_adel_ne _ _ _ h]
  · rfl

lemma foldl_delStep_count (keys : List String) :
    ∀ (c : Int) (st : Store), keys.Nodup →
      (keys.foldl delStep (c, st)).1 =
        c + ((keys.filter (fun k => keyExists st k)).length : Int) := by
  induction keys with
  | nil => intro c st _; simp
  | cons k t ih =>
    intro c st hnd
    simp only [List.nodup_cons] at hnd
    by_cases hk : keyExists st k = true
    · have hstep : delStep (c, st) k =
          (c + 1, { data := adel st.data k, ttls := adel st.ttls k }) := by
        simp [delStep, hk]
      have hfc : t.filter (fun k' =>
            keyExists ({ data := adel st.data k, ttls := adel st.ttls k } :
              Store) k') = t.filter (fun k' => keyExists st k') := by
        apply List.filter_congr
        intro x hx
        have hne : x ≠ k := fun hc => hnd.1 (hc ▸ hx)
        simp [keyExists, aget_adel_ne _ _ _ hne]
      rw [List.foldl_cons, hstep,
        ih (c + 1) { data := adel st.data k, ttls := adel st.ttls k } hnd.2,
        hfc]
      simp [List.filter_cons, hk]
      omega
    · have hstep : delStep (c, st) k = (c, st) := by
        simp [delStep, hk]
      rw [List.foldl_cons, hstep, ih c st hnd.2]
      simp [List.filter_cons, hk]

lemma foldl_delStep_ttls (keys : List String) :
    ∀ (c : Int) (st : Store) (k' : String),
      keyExists ((keys.foldl delStep (c, st)).2) k' = true →
      keyExists st k' = true ∧
        aget ((keys.foldl delStep (c, st)).2).ttls k' = aget st.ttls k' := by
  induction keys with
  | nil => intro c st k' h; exact ⟨h, rfl⟩
  | cons k t ih =>
    intro c st k' h
    rw [List.foldl_cons] at h ⊢
    by_cases hk : keyExists st k = true
    · have hstep : delStep (c, st) k =
          (c + 1, ⟨adel st.data k, adel st.ttls k⟩) := by
        simp [delStep, hk]
      rw [hstep] at h ⊢
      obtain ⟨h1, h2⟩ := ih (c + 1) ⟨adel st.data k, adel st.ttls k⟩ k' h
      by_cases hne : k' = k
      · exfalso
        rw [hne] at h1
        simp [keyExists, aget_adel_self] at h1
      · refine ⟨?_, ?_⟩
        · simpa [keyExists, aget_adel_ne _ _ _ hne] using h1
        · rw [h2]
          exact aget_adel_ne _ _ _ hne
    · have hstep : delStep (c, st) k = (c, st) := by simp [delStep, hk]
      rw [hstep] at h ⊢
      exact ih c st k' h

lemma storeHdel_ttls (st : Store) (k : String) (fs : List String)
    (k' : String) (h : keyExists (storeHdel st k fs).2 k' = true) :
    aget (storeHdel st k fs).2.ttls k' = aget st.ttls k' := by
  unfold storeHdel at h ⊢
  cases haget : aget st.data k with
  | none => simp [haget] at h ⊢
  | some rv =>
    cases rv with
    | str v => simp [haget] at h ⊢
    | hash hsh =>
      simp only [haget] at h ⊢
      split at h
      · rename_i hemp
        split
        · by_cases hne : k' = k
          · exfalso
            rw [hne] at h
            simp [keyExists, aget_adel_self] at h
          · exact aget_adel_ne _ _ _ hne
        · rename_i hnemp
          exact absurd hemp hnemp
      · rename_i hnemp
        split
        · rename_i hemp
          exact absurd hemp hnemp
        · rfl

lemma keyExists_expire (st : Store) (k : String) (t : Int) (k' : String) :
    keyExists (storeExpire st k t) k' = keyExists st k' := by
  unfold keyExists
  rw [storeExpire_data]

lemma ttl_after_write (st1 : Store) (k : String) (t : Int)
    (h : keyExists (storeExpire st1 k t) k = true) :
    aget (storeExpire st1 k t).ttls k = Option.some t := by
  have h' : keyExists st1 k = true := by
    rw [← keyExists_expire st1 k t k]
    exact h
  exact ttl_after_expire st1 k t h'

lemma storeGet_after_set (st : Store) (k : String) (v : PyVal) (kt : Bool) :
    storeGet (storeSet st k v false kt).2 k = Option.some v := by
  cases kt <;> simp [storeSet, storeGet, aget_dinsert_self]

/-- Example store for the C1 counterexample: the base key `k` holds the
empty string and the hash `h` has a field `f` holding the empty string. -/
def exStore1 : Store :=
  ⟨[("k", RVal.str (PyVal.str "")), ("h", RVal.hash [("f", PyVal.str "")])], []⟩

/-- Example store used by witnesses: the key `z` holds integer zero. -/
def exStoreZ : Store := ⟨[("z", RVal.str (PyVal.int 0))], []⟩

/-- C1 counterexample: a value that is present and decodes to the empty
string IS replaced by the caller-supplied default, both on `get` and on
`hget` — contradicting the claim that only an absent key or field triggers
the default. -/
theorem claim_C1_counterexample :
    storeGet exStore1 "k" = Option.some (PyVal.str "") ∧
    (Redis.get ⟨"", ""⟩ exStore1 "k" (PyVal.str "DEFAULT") Option.none
      Option.none).1 = PyVal.str "DEFAULT" ∧
    storeHget exStore1 "h" "f" = Option.some (PyVal.str "") ∧
    (Redis.hget ⟨"", ""⟩ exStore1 "h" "f" (PyVal.str "DEFAULT") Option.none
      Option.none).1 = PyVal.str "DEFAULT" := by
  refine ⟨rfl, by decide, rfl, by decide⟩

/-- C1 (amended): on `get` and `hget` the caller-supplied default is
returned when the key/field is absent OR when the present value decodes to
the empty string; a present truthy value or a present numeric zero (int or
float) is returned as-is. -/
theorem claim_C1_default_rule (cfg : RedisConf) (st : Store)
    (key field : String) (d : PyVal) (pre ver : Option String) :
    (∀ v, storeGet st (cleankey cfg.pre cfg.ver pre ver key) =
        Option.some v →
      (pyTruthy v = true ∨ v = PyVal.int 0 ∨ v = PyVal.float 0) →
      (Redis.get cfg st key d pre ver).1 = v) ∧
    (storeGet st (cleankey cfg.pre cfg.ver pre ver key) =
        Option.some (PyVal.str "") →
      (Redis.get cfg st key d pre ver).1 = d) ∧
    (storeGet st (cleankey cfg.pre cfg.ver pre ver key) = Option.none →
      (Redis.get cfg st key d pre ver).1 = d) ∧
    (∀ v, storeHget st (cleankey cfg.pre cfg.ver pre ver key) field =
        Option.some v →
      (pyTruthy v = true ∨ v = PyVal.int 0 ∨ v = PyVal.float 0) →
      (Redis.hget cfg st key field d pre ver).1 = v) ∧
    (storeHget st (cleankey cfg.pre cfg.ver pre ver key) field =
        Option.some (PyVal.str "") →
      (Redis.hget cfg st key field d pre ver).1 = d) ∧
    (storeHget st (cleankey cfg.pre cfg.ver pre ver key) field =
        Option.none →
      (Redis.hget cfg st key field d pre ver).1 = d) := by
  refine ⟨?_, ?_, ?_, ?_, ?_, ?_⟩
  · intro v hv hcond
    simp only [Redis.get]
    rw [hv]
    rcases hcond with h1 | h1 | h1
    · simp [byteConv, h1]
    · subst h1; simp [byteConv, pyTruthy, pyEqZero]
    · subst h1; simp [byteConv, pyTruthy, pyEqZero]
  · intro hv
    simp only [Redis.get]
    rw [hv]
    simp [byteConv, pyTruthy, pyEqZero]
  · intro hv
    simp only [Redis.get]
    rw [hv]
    simp [byteConv, pyTruthy, pyEqZero]
  · intro v hv hcond
    simp only [Redis.hget]
    rw [hv]
    rcases hcond with h1 | h1 | h1
    · simp [byteConv, h1]
    · subst h1; simp [byteConv, pyTruthy, pyEqZero]
    · subst h1; simp [byteConv, pyTruthy, pyEqZero]
  · intro hv
    simp only [Redis.hget]
    rw [hv]
    simp [byteConv, pyTruthy, pyEqZero]
  · intro hv
    simp only [Redis.hget]
    rw [hv]
    simp [byteConv, pyTruthy, pyEqZero]

/-- Witness for C1 (amended): a stored integer zero is returned as-is. -/
theorem claim_C1_default_rule_witness :
    (Redis.get ⟨"", ""⟩ exStoreZ "z" (PyVal.str "D") Option.none
      Option.none).1 = PyVal.int 0 :=
  (claim_C1_default_rule ⟨"", ""⟩ exStoreZ "z" "f" (PyVal.str "D")
    Option.none Option.none).1 (PyVal.int 0) (by decide)
    (Or.inr (Or.inl rfl))

/-- C2: `_cleankey` implements the spec's KeyComposer — a non-empty
per-call segment wins over the stripped instance segment (an unset per-call
segment behaves like an empty one), empty segments are dropped, survivors
are joined with a colon; the spec's concrete examples hold, and a non-empty
per-call prefix makes the instance prefix irrelevant. -/
theorem claim_C2_keycompose :
    (∀ ip iv cp cv k, cleankey ip iv (Option.some cp) (Option.some cv) k =
      composeSpec ip iv cp cv k) ∧
    (∀ ip iv k, cleankey ip iv Option.none Option.none k =
      composeSpec ip iv "" "" k) ∧
    composeSpec "" "" "" "" "k" = "k" ∧
    composeSpec "app" "" "" "" "k" = "app:k" ∧
    composeSpec "app" "v1" "" "" "k" = "app:v1:k" ∧
    (∀ ip ip' iv cp cv k, cp ≠ "" →
      composeSpec ip iv cp cv k = composeSpec ip' iv cp cv k) := by
  refine ⟨?_, ?_, by decide, by decide, by decide, ?_⟩
  · intro ip iv cp cv k
    rfl
  · intro ip iv k
    rfl
  · intro ip ip' iv cp cv k h
    unfold composeSpec
    simp [h]

/-- Witness for C2: a non-empty per-call prefix gives the same key under
two different instance prefixes. -/
theorem claim_C2_keycompose_witness :
    ("call" ≠ "") ∧
    composeSpec "app" "v1" "call" "" "k" = composeSpec "zzz" "v1" "call" "" "k" :=
  ⟨by decide, claim_C2_keycompose.2.2.2.2.2 "app" "zzz" "v1" "call" "" "k"
    (by decide)⟩

/-- C7: `hmset` with an empty mapping returns 0 and `hmget` with an
explicit empty field list returns an empty mapping; in both cases the store
state is unchanged and the trace of store calls is empty. -/
theorem claim_C7_empty_short_circuit (cfg : RedisConf) (st : Store)
    (key : String) (ttl : Option Int) (pre ver : Option String) :
    Redis.hmset cfg st key [] ttl pre ver = (0, st, []) ∧
    Redis.hmget cfg st key (Option.some []) pre ver = ([], st, []) :=
  ⟨rfl, rfl⟩

/-- C8: the enumerated-choice message is a pure function of the ordered
choice list — one choice, two choices joined by "or", three or more as a
comma-separated list with an Oxford comma before the final "or" and a
trailing period — and a free-form error returns its message unchanged;
including the concrete test-asserted strings. -/
theorem claim_C8_message_format :
    (∀ c, ValidationError.message (ValidationError.choices [c]) =
      "Arguments can only be: " ++ c ++ ".") ∧
    (∀ c1 c2, ValidationError.message (ValidationError.choices [c1, c2]) =
      "Arguments can only be: " ++ (c1 ++ " or " ++ c2) ++ ".") ∧
    (∀ c1 c2 mid cl, ValidationError.message
        (ValidationError.choices (c1 :: c2 :: (mid ++ [cl]))) =
      "Arguments can only be: " ++
        (commaJoin (c1 :: c2 :: mid) ++ ", or " ++ cl) ++ ".") ∧
    (∀ m, ValidationError.message (ValidationError.freeform m) = m) ∧
    ValidationError.message (ValidationError.choices ["a"]) =
      "Arguments can only be: a." ∧
    ValidationError.message (ValidationError.choices ["a", "b"]) =
      "Arguments can only be: a or b." ∧
    ValidationError.message (ValidationError.choices ["a", "b", "c"]) =
      "Arguments can only be: a, b, or c." ∧
    ValidationError.message (ValidationError.freeform "This is it.") =
      "This is it." := by
  refine ⟨?_, ?_, ?_, ?_, by decide, by decide, by decide, rfl⟩
  · intro c
    rfl
  · intro c1 c2
    rfl
  · intro c1 c2 mid cl
    cases mid with
    | nil =>
      show "Arguments can only be: " ++ oxford (c1 :: ([c2] ++ [cl])) ++ "." = _
      rw [oxford_append]
    | cons m ms =>
      show "Arguments can only be: " ++
        oxford (c1 :: ((c2 :: m :: ms) ++ [cl])) ++ "." = _
      rw [oxford_append]
  · intro m
    rfl

/-- C9: a call whose argument validation fails (here `hdel` with an empty
or missing fields argument and `delete` with an empty key sequence) returns
the validation error with the store state unchanged and an empty store-call
trace — the error is raised before any store round-trip. -/
theorem claim_C9_validation_before_store (cfg : RedisConf) (st : Store)
    (key : String) (pre ver : Option String)
    (fields : Option (String ⊕ List String)) (dkey : String ⊕ List String) :
    (∀ e, validateHdelFields fields = Except.error e →
      Redis.hdel cfg st key fields pre ver = (Except.error e, st, [])) ∧
    (∀ e, validateDeleteKey dkey = Except.error e →
      Redis.delete cfg st dkey pre ver = (Except.error e, st, [])) := by
  constructor
  · intro e h
    unfold Redis.hdel
    rw [h]
  · intro e h
    unfold Redis.delete
    rw [h]

/-- Example store used by the C9 witness. -/
def exStore9 : Store := ⟨[("a", RVal.hash [("f", PyVal.int 1)])], [("a", 3)]⟩

/-- Witness for C9: `hdel` with an empty field list and `delete` with an
empty key list error out leaving the store untouched. -/
theorem claim_C9_validation_before_store_witness :
    Redis.hdel ⟨"", ""⟩ exStore9 "a" (Option.some (Sum.inr [])) Option.none
      Option.none =
      (Except.error (ValidationError.freeform "fields must not be empty"),
        exStore9, []) ∧
    Redis.delete ⟨"", ""⟩ exStore9 (Sum.inr []) Option.none Option.none =
      (Except.error (ValidationError.freeform "key must not be empty"),
        exStore9, []) :=
  ⟨(claim_C9_validation_before_store ⟨"", ""⟩ exStore9 "a" Option.none
      Option.none (Option.some (Sum.inr [])) (Sum.inr [])).1 _ rfl,
   (claim_C9_validation_before_store ⟨"", ""⟩ exStore9 "a" Option.none
      Option.none (Option.some (Sum.inr [])) (Sum.inr [])).2 _ rfl⟩

/-- C3: `set`, `hset`, and `hmset` (with a non-empty mapping) always end
their store-call trace with an EXPIRE of the composed key carrying the
per-call ttl when supplied and otherwise the 1,209,600-second default —
issued regardless of the prior store state — and whenever the composed key
exists afterwards its recorded time-to-live is exactly that value. -/
theorem claim_C3_write_expire (cfg : RedisConf) (st : Store)
    (key field : String) (val : PyVal) (xx keepttl : Bool)
    (mapping : Option (List (String × PyVal)))
    (mp : List (String × PyVal)) (ttl : Option Int)
    (pre ver : Option String) :
    (Redis.set cfg st key val xx keepttl ttl pre ver).2.2 =
      [Call.set (cleankey cfg.pre cfg.ver pre ver key) val xx keepttl,
       Call.expire (cleankey cfg.pre cfg.ver pre ver key)
         (ttl.getD Redis.ttl)] ∧
    (keyExists (Redis.set cfg st key val xx keepttl ttl pre ver).2.1
        (cleankey cfg.pre cfg.ver pre ver key) = true →
      aget (Redis.set cfg st key val xx keepttl ttl pre ver).2.1.ttls
        (cleankey cfg.pre cfg.ver pre ver key) =
        Option.some (ttl.getD Redis.ttl)) ∧
    (Redis.hset cfg st key field val mapping ttl pre ver).2.2 =
      [Call.hset (cleankey cfg.pre cfg.ver pre ver key)
         ((field, val) :: mapping.getD []),
       Call.expire (cleankey cfg.pre cfg.ver pre ver key)
         (ttl.getD Redis.ttl)] ∧
    (keyExists (Redis.hset cfg st key field val mapping ttl pre ver).2.1
        (cleankey cfg.pre cfg.ver pre ver key) = true →
      aget (Redis.hset cfg st key field val mapping ttl pre ver).2.1.ttls
        (cleankey cfg.pre cfg.ver pre ver key) =
        Option.some (ttl.getD Redis.ttl)) ∧
    (mp ≠ [] → (Redis.hmset cfg st key mp ttl pre ver).2.2 =
      [Call.hset (cleankey cfg.pre cfg.ver pre ver key) mp,
       Call.expire (cleankey cfg.pre cfg.ver pre ver key)
         (ttl.getD Redis.ttl)]) ∧
    (mp ≠ [] →
      keyExists (Redis.hmset cfg st key mp ttl pre ver).2.1
        (cleankey cfg.pre cfg.ver pre ver key) = true →
      aget (Redis.hmset cfg st key mp ttl pre ver).2.1.ttls
        (cleankey cfg.pre cfg.ver pre ver key) =
        Option.some (ttl.getD Redis.ttl)) := by
  refine ⟨rfl, ?_, rfl, ?_, ?_, ?_⟩
  · intro h
    exact ttl_after_write _ _ _ h
  · intro h
    exact ttl_after_write _ _ _ h
  · intro hmp
    cases mp with
    | nil => exact absurd rfl hmp
    | cons p t => rfl
  · intro hmp h
    cases mp with
    | nil => exact absurd rfl hmp
    | cons p t => exact ttl_after_write _ _ _ h

/-- Witness for C3: after `set` on an empty store with no custom ttl, the
key's time-to-live is the default 1,209,600 seconds. -/
theorem claim_C3_write_expire_witness :
    aget (Redis.set ⟨"", ""⟩ ⟨[], []⟩ "k" (PyVal.int 1) false false
      Option.none Option.none Option.none).2.1.ttls
      (cleankey "" "" Option.none Option.none "k") =
      Option.some ((Option.none : Option Int).getD Redis.ttl) :=
  (claim_C3_write_expire ⟨"", ""⟩ ⟨[], []⟩ "k" "f" (PyVal.int 1) false false
    Option.none [] Option.none Option.none Option.none).2.1 (by decide)

/-- C4: for every scalar value (string, int, float, including 0 and the
empty string), `set(k, v)` followed by `get(k)` (with its default default
argument, the empty string) returns v unchanged. -/
theorem claim_C4_roundtrip (cfg : RedisConf) (st : Store) (k : String)
    (v : PyVal) (h : v ≠ PyVal.none) :
    (Redis.get cfg (Redis.set cfg st k v false false Option.none Option.none
      Option.none).2.1 k (PyVal.str "") Option.none Option.none).1 = v := by
  have hval : storeGet (Redis.set cfg st k v false false Option.none
      Option.none Option.none).2.1
      (cleankey cfg.pre cfg.ver Option.none Option.none k) =
      Option.some v := by
    simp only [Redis.set]
    rw [storeGet_expire]
    exact storeGet_after_set st _ v false
  simp only [Redis.get]
  rw [hval]
  cases v with
  | none => exact absurd rfl h
  | str s =>
    by_cases hs : s = ""
    · subst hs; simp [byteConv, pyTruthy, pyEqZero]
    · simp [byteConv, pyTruthy, pyEqZero, hs]
  | int n =>
    by_cases hn : n = 0
    · subst hn; simp [byteConv, pyTruthy, pyEqZero]
    · simp [byteConv, pyTruthy, pyEqZero, hn]
  | float q =>
    by_cases hq : q = 0
    · subst hq; simp [byteConv, pyTruthy, pyEqZero]
    · simp [byteConv, pyTruthy, pyEqZero, hq]

/-- Witness for C4: round-trip of the falsy value 0 on a namespaced
instance. -/
theorem claim_C4_roundtrip_witness :
    (Redis.get ⟨"app", "v1"⟩ (Redis.set ⟨"app", "v1"⟩ ⟨[], []⟩ "sam"
      (PyVal.int 0) false false Option.none Option.none Option.none).2.1
      "sam" (PyVal.str "") Option.none Option.none).1 = PyVal.int 0 :=
  claim_C4_roundtrip ⟨"app", "v1"⟩ ⟨[], []⟩ "sam" (PyVal.int 0) (by decide)

/-- C5: `hmget` with an explicit non-empty (duplicate-free) field list
returns a mapping in exactly the request order, pairing each requested
field with its decoded value; a field missing from the hash is paired with
the absent marker (`byteConv` of a missing reply), not dropped. -/
theorem claim_C5_hmget_order (cfg : RedisConf) (st : Store) (key : String)
    (pre ver : Option String) (fs : List String) (h1 : fs ≠ [])
    (h2 : fs.Nodup) :
    (Redis.hmget cfg st key (Option.some fs) pre ver).1 =
      fs.map (fun f => (f, byteConv (storeHget st
        (cleankey cfg.pre cfg.ver pre ver key) f))) ∧
    byteConv Option.none = PyVal.none := by
  refine ⟨?_, rfl⟩
  cases fs with
  | nil => exact absurd rfl h1
  | cons f t =>
    simp only [Redis.hmget, storeHmget, List.map_map]
    rw [show (byteConv ∘ fun x => storeHget st
        (cleankey cfg.pre cfg.ver pre ver key) x) =
        (fun x => byteConv (storeHget st
          (cleankey cfg.pre cfg.ver pre ver key) x)) from rfl]
    rw [zip_map_self]
    exact pyDict_self (f :: t) _ h2

/-- Example store for the C5 witness: hash `h` has only the field `f`. -/
def exStore5 : Store := ⟨[("h", RVal.hash [("f", PyVal.int 5)])], []⟩

/-- Witness for C5: requesting `[f, g]` where only `f` exists yields the
pair list in request order with `g` mapped to the absent marker. -/
theorem claim_C5_hmget_order_witness :
    (Redis.hmget ⟨"", ""⟩ exStore5 "h" (Option.some ["f", "g"]) Option.none
      Option.none).1 = [("f", PyVal.int 5), ("g", PyVal.none)] := by
  have h := (claim_C5_hmget_order ⟨"", ""⟩ exStore5 "h" Option.none
    Option.none ["f", "g"] (by decide) (by decide)).1
  rw [h]
  decide

/-- C6: `delete` normalizes a single string to a one-element sequence,
composes every base key with the same per-call/instance prefix and version
rules, issues one multi-key DEL, and returns the number of keys actually
removed (for a duplicate-free composed list, the count of keys that existed
in the store). -/
theorem claim_C6_delete (cfg : RedisConf) (st : Store)
    (pre ver : Option String) (s : String) (ks : List String) :
    Redis.delete cfg st (Sum.inl s) pre ver =
      Redis.delete cfg st (Sum.inr [s]) pre ver ∧
    (ks ≠ [] → Redis.delete cfg st (Sum.inr ks) pre ver =
      (Except.ok (storeDel st (ks.map (fun k =>
          cleankey cfg.pre cfg.ver pre ver k))).1,
        (storeDel st (ks.map (fun k =>
          cleankey cfg.pre cfg.ver pre ver k))).2,
        [Call.del (ks.map (fun k => cleankey cfg.pre cfg.ver pre ver k))])) ∧
    ((ks.map (fun k => cleankey cfg.pre cfg.ver pre ver k)).Nodup →
      (storeDel st (ks.map (fun k => cleankey cfg.pre cfg.ver pre ver k))).1 =
        (((ks.map (fun k => cleankey cfg.pre cfg.ver pre ver k)).filter
          (fun k => keyExists st k)).length : Int)) := by
  refine ⟨rfl, ?_, ?_⟩
  · intro h
    cases ks with
    | nil => exact absurd rfl h
    | cons k t => rfl
  · intro hnd
    unfold storeDel
    rw [foldl_delStep_count _ 0 st hnd]
    simp

/-- Example store for the C6 witness: only the key `a` exists. -/
def exStore6 : Store := ⟨[("a", RVal.str (PyVal.int 1))], [("a", 99)]⟩

/-- Witness for C6: `delete(['a','b'])` where only `a` exists returns 1. -/
theorem claim_C6_delete_witness :
    (Redis.delete ⟨"", ""⟩ exStore6 (Sum.inr ["a", "b"]) Option.none
      Option.none).1 = Except.ok 1 := by
  have hb := (claim_C6_delete ⟨"", ""⟩ exStore6 Option.none Option.none "x"
    ["a", "b"]).2.1 (by decide)
  have hc := (claim_C6_delete ⟨"", ""⟩ exStore6 Option.none Option.none "x"
    ["a", "b"]).2.2 (by decide)
  rw [hb]
  show Except.ok (storeDel exStore6 (["a", "b"].map (fun k =>
    cleankey "" "" Option.none Option.none k))).1 = Except.ok 1
  rw [hc]
  exact congrArg Except.ok (by decide)

/-- C10: neither `hdel` nor `delete` touches the time-to-live of any key
that remains in the store after the call. -/
theorem claim_C10_ttl_frame (cfg : RedisConf) (st : Store) (key k' : String)
    (pre ver : Option String) (fields : Option (String ⊕ List String))
    (dkey : String ⊕ List String) :
    (keyExists (Redis.hdel cfg st key fields pre ver).2.1 k' = true →
      aget (Redis.hdel cfg st key fields pre ver).2.1.ttls k' =
        aget st.ttls k') ∧
    (keyExists (Redis.delete cfg st dkey pre ver).2.1 k' = true →
      aget (Redis.delete cfg st dkey pre ver).2.1.ttls k' =
        aget st.ttls k') := by
  constructor
  · intro h
    unfold Redis.hdel at h ⊢
    cases hv : validateHdelFields fields with
    | error e => rfl
    | ok fs =>
      rw [hv] at h
      exact storeHdel_ttls st _ fs k' h
  · intro h
    unfold Redis.delete at h ⊢
    cases hv : validateDeleteKey dkey with
    | error e => rfl
    | ok ks =>
      rw [hv] at h
      exact (foldl_delStep_ttls _ 0 st k' h).2

/-- Example store for the C10 witness: a hash `h` and a plain key `o`,
both with recorded time-to-lives. -/
def exStoreT : Store :=
  ⟨[("h", RVal.hash [("f", PyVal.int 1)]), ("o", RVal.str (PyVal.int 2))],
    [("o", 42), ("h", 7)]⟩

/-- Witness for C10: after `hdel` empties the hash `h` and after `delete`
removes `h`, the surviving key `o` keeps its time-to-live of 42. -/
theorem claim_C10_ttl_frame_witness :
    aget (Redis.hdel ⟨"", ""⟩ exStoreT "h"
      (Option.some (Sum.inr ["f"])) Option.none Option.none).2.1.ttls "o" =
      aget exStoreT.ttls "o" ∧
    aget (Redis.delete ⟨"", ""⟩ exStoreT (Sum.inr ["h"]) Option.none
      Option.none).2.1.ttls "o" = aget exStoreT.ttls "o" :=
  ⟨(claim_C10_ttl_frame ⟨"", ""⟩ exStoreT "h" "o" Option.none Option.none
      (Option.some (Sum.inr ["f"])) (Sum.inr ["h"])).1 (by decide),
   (claim_C10_ttl_frame ⟨"", ""⟩ exStoreT "h" "o" Option.none Option.none
      (Option.some (Sum.inr ["f"])) (Sum.inr ["h"])).2 (by decide)⟩
